import Mathlib

/-!
Verification of the RLM agent core: response parser, agent loop,
execution backends, and the depth-bounded recursion gate.

Python strings are modelled as `List Char` (Python `len` = list length).
Each definition is a direct transcription of the corresponding Python
function; stateful code is modelled by explicit state passing, and the
effects of `exec`/network transport are supplied as parameters or oracles.
-/

namespace RLM

/-- ASCII whitespace recognised by Python's `\s` / `str.strip` / `str.isspace`
(the model restricts to the ASCII range). -/
def isPySpace (c : Char) : Bool :=
  c = ' ' || c = '\t' || c = '\n' || c = '\r' || c = '\x0b' || c = '\x0c'

/-- ASCII word character, Python regex `\w` restricted to ASCII. -/
def isWordChar (c : Char) : Bool :=
  c.isAlpha || c.isDigit || c = '_'

/-- Python `str.strip()`: drop leading and trailing whitespace. -/
def pyStrip (l : List Char) : List Char :=
  ((l.dropWhile isPySpace).reverse.dropWhile isPySpace).reverse

/-- Index of the last newline in a list, Python `str.rfind('\n')`
(`none` models the `-1` result). -/
def rfindNL : List Char → Option Nat
  | [] => Option.none
  | c :: rest =>
    match rfindNL rest with
    | some i => some (i + 1)
    | Option.none => if c = '\n' then some 0 else Option.none

/-- The truncation notice appended by `truncate_output`
(`parser.py`, f-string at line 108). -/
def truncNotice (total : Nat) : List Char :=
  "\n\n... [Output truncated. Total length: ".data ++ (Nat.repr total).data
    ++ " chars]".data

/-- The body kept by `truncate_output` on the truncating branch: cut at
`maxChars`, then back up to the last newline of the cut when that newline
lies in its last 30%.  The float comparison `last_newline > max_chars * 0.7`
is modelled by the exact rational comparison
`10 * last_newline > 7 * max_chars`. -/
def cutBody (output : List Char) (maxChars : Nat) : List Char :=
  match rfindNL (output.take maxChars) with
  | some i =>
    if 7 * maxChars < 10 * i then (output.take maxChars).take i
    else output.take maxChars
  | Option.none => output.take maxChars

/-- `rlm/parser.py` `truncate_output`: identity within the limit, otherwise
the cut body followed by the truncation notice. -/
def truncate_output (output : List Char) (maxChars : Nat) : List Char :=
  if output.length ≤ maxChars then output
  else cutBody output maxChars ++ truncNotice output.length

/-- Anchoring rule of the marker regexes `(?:^|\s)FINAL...` with `re.MULTILINE`:
a keyword occurrence at position `p` is anchored iff `p = 0` or the previous
character is whitespace (`^` after a newline is subsumed, since `\n` is `\s`). -/
def anchorOK : Option Char → Bool
  | Option.none => true
  | some c => isPySpace c

/-- Attempt to match `FINAL_VAR\((\w+)\)` with the keyword at the head of `s`;
returns the captured group. -/
def matchFinalVarHere (s : List Char) : Option (List Char) :=
  if "FINAL_VAR(".data.isPrefixOf s then
    let rest := s.drop 10
    let run := rest.takeWhile isWordChar
    if run = [] then Option.none
    else
      match rest.drop run.length with
      | ')' :: _ => some run
      | _ => Option.none
  else Option.none

/-- Attempt to match `FINAL\(([^)]+)\)` with the keyword at the head of `s`;
returns the captured group (everything up to the first `)`), unstripped. -/
def matchFinalHere (s : List Char) : Option (List Char) :=
  if "FINAL(".data.isPrefixOf s then
    let rest := s.drop 6
    let run := rest.takeWhile (fun c => !(c = ')'))
    if run = [] then Option.none
    else
      match rest.drop run.length with
      | ')' :: _ => some run
      | _ => Option.none
  else Option.none

/-- `re.search` for an anchored marker: scan positions left to right,
tracking the previous character, and return the leftmost match of `f`
at an anchored position. -/
def scanAnchored (f : List Char → Option (List Char)) :
    Option Char → List Char → Option (List Char)
  | _, [] => Option.none
  | prev, c :: rest =>
    if anchorOK prev then
      match f (c :: rest) with
      | some x => some x
      | Option.none => scanAnchored f (some c) rest
    else scanAnchored f (some c) rest

/-- The two marker kinds recognised by the parser. -/
inductive FinalKind : Type
  | FINAL : FinalKind
  | FINAL_VAR : FinalKind
deriving DecidableEq, Repr

/-- `rlm/parser.py` `detect_final_answer`: `FINAL_VAR` is searched first;
a `FINAL` whose content strips to empty is rejected. -/
def detect_final_answer (response : List Char) :
    Bool × Option FinalKind × Option (List Char) :=
  match scanAnchored matchFinalVarHere Option.none response with
  | some name => (true, some FinalKind.FINAL_VAR, some name)
  | Option.none =>
    match scanAnchored matchFinalHere Option.none response with
    | some raw =>
      let content := pyStrip raw
      if content = [] then (false, Option.none, Option.none)
      else (true, some FinalKind.FINAL, some content)
    | Option.none => (false, Option.none, Option.none)

/-- Index of the first occurrence of `pat` in a list (Python `str.find` /
the leftmost position where a regex literal matches). -/
def findSub (pat : List Char) : List Char → Option Nat
  | [] => if pat = [] then some 0 else Option.none
  | c :: rest =>
    if pat.isPrefixOf (c :: rest) then some 0
    else (findSub pat rest).map (· + 1)

/-- Attempt to match a fenced block with `opener` at the head of `s`,
following the regex `opener\s*\n(.*?)\x60\x60\x60`: greedy `\s*` followed by
`\n` consumes the whitespace run up to and including its last newline, and the
non-greedy group stops at the first closing fence. -/
def fenceHere (opener : List Char) (s : List Char) : Option (List Char) :=
  let rest := s.drop opener.length
  let ws := rest.takeWhile isPySpace
  match rfindNL ws with
  | some j =>
    let content := rest.drop (j + 1)
    match findSub "```".data content with
    | some k => some (content.take k)
    | Option.none => Option.none
  | Option.none => Option.none

/-- Leftmost fenced block for a given opener (`re.findall`, first match). -/
def scanFence (opener : List Char) : List Char → Option (List Char)
  | [] => Option.none
  | c :: rest =>
    if opener.isPrefixOf (c :: rest) then
      match fenceHere opener (c :: rest) with
      | some content => some content
      | Option.none => scanFence opener rest
    else scanFence opener rest

/-- `rlm/parser.py` `extract_first_code_block`: first ```python fenced block,
falling back to a generic fence when no python-tagged block exists; the
block is stripped. -/
def extract_first_code_block (response : List Char) : Option (List Char) :=
  match scanFence "```python".data response with
  | some b => some (pyStrip b)
  | Option.none =>
    match scanFence "```".data response with
    | some b => some (pyStrip b)
    | Option.none => Option.none

/-- Result of one `exec_code` call: `{success, output, error}`. -/
structure ExecResult : Type where
  success : Bool
  output : List Char
  error : Option (List Char)
deriving DecidableEq, Repr

/-- Values held in the sandbox namespace.  `PyVal.none` models Python `None`;
all modelled values are JSON-serializable, so `get_variable`'s `repr`
fallback is never taken on them. -/
inductive PyVal : Type
  | none : PyVal
  | str (s : List Char) : PyVal
  | int (n : Int) : PyVal
  | bool (b : Bool) : PyVal
deriving DecidableEq, Repr

/-- Python `str(value)` on modelled values. -/
def pyStr : PyVal → List Char
  | PyVal.none => "None".data
  | PyVal.str s => s
  | PyVal.int n => (toString n).data
  | PyVal.bool b => if b then "True".data else "False".data

/-- Python `'\n\n'.join(parts)`. -/
def joinSep (sep : List Char) : List (List Char) → List Char
  | [] => []
  | [x] => x
  | x :: xs => x ++ sep ++ joinSep sep xs

/-- `rlm/parser.py` `format_execution_result`. -/
def format_execution_result (result : ExecResult) : List Char :=
  let parts : List (List Char) :=
    (if result.output ≠ [] then
      ["**Output:**\n```\n".data ++ result.output ++ "\n```".data] else []) ++
    (match result.error with
     | some e =>
       if e ≠ [] then
         [if result.success then "**Stderr:**\n```\n".data ++ e ++ "\n```".data
          else "**Error:**\n```\n".data ++ e ++ "\n```".data]
       else []
     | Option.none => [])
  let parts :=
    if parts = [] then
      [if result.success then "*(Code executed successfully with no output)*".data
       else "*(Execution failed with no output)*".data]
    else parts
  joinSep "\n\n".data parts

/-- The apostrophe character (U+0027), used in agent messages. -/
def squote : Char := Char.ofNat 39

/-- Agent message `Variable {name} not found. Last execution output: ...`
(single quotes around the name, `agent.py` line 186). -/
def varNotFoundMsg (name truncated : List Char) : List Char :=
  "Variable ".data ++ [squote] ++ name ++ [squote]
    ++ " not found. Last execution output:\n".data ++ truncated

/-- Agent message `Error: Variable {name} not found` (single quotes around
the name, `agent.py` line 207). -/
def varNotFoundErr (name : List Char) : List Char :=
  "Error: Variable ".data ++ [squote] ++ name ++ [squote] ++ " not found".data

/-- The nudge appended when a turn has neither code nor a final marker
(`agent.py` line 218). -/
def nudgeMsg : List Char :=
  "Continue with your analysis. Execute code or provide the final answer using FINAL() or FINAL_VAR().".data

/-- Outcome of one agent-loop turn: either the run terminates with a final
answer, or the turn appends `{assistant, user}` messages and continues. -/
inductive TurnOut : Type
  | final (ans : List Char) : TurnOut
  | next (assistantMsg userMsg : List Char) : TurnOut
deriving DecidableEq, Repr

/-- One turn of `RLMAgent.run` (`agent.py` lines 157-219), given the raw LLM
`response`.  The sandbox is abstracted by its observable interface:
`exec` is `sandbox.exec_code` (returning the updated namespace and the
`ExecutionResult`), `getVar` is `sandbox.get_variable` (`PyVal.none` models
the Python `None` returned for an unbound name). -/
def runTurn {NS : Type} (exec : List Char → NS → NS × ExecResult)
    (getVar : NS → List Char → PyVal) (limit : Nat)
    (response : List Char) (ns : NS) : TurnOut × NS :=
  let codeBlock := extract_first_code_block response
  let fin := detect_final_answer response
  match codeBlock with
  | some code =>
    let step := exec code ns
    let ns' := step.1
    let truncated := truncate_output (format_execution_result step.2) limit
    if fin.1 then
      if fin.2.1 = some FinalKind.FINAL_VAR then
        let name := (fin.2.2).getD []
        let v := getVar ns' name
        if v ≠ PyVal.none then (TurnOut.final (pyStr v), ns')
        else (TurnOut.final (varNotFoundMsg name truncated), ns')
      else (TurnOut.final ((fin.2.2).getD []), ns')
    else (TurnOut.next response ("Execution Result:\n".data ++ truncated), ns')
  | Option.none =>
    if fin.1 then
      if fin.2.1 = some FinalKind.FINAL_VAR then
        let name := (fin.2.2).getD []
        let v := getVar ns name
        if v ≠ PyVal.none then (TurnOut.final (pyStr v), ns)
        else (TurnOut.final (varNotFoundErr name), ns)
      else (TurnOut.final ((fin.2.2).getD []), ns)
    else (TurnOut.next response nudgeMsg, ns)

/-- One LLM call in the agent loop: a response text, or a transport failure
raised out of `llm_client.chat` (propagated, per the spec, as a fatal error). -/
inductive LLMStep : Type
  | ok (response : List Char) : LLMStep
  | raises : LLMStep

/-- How a run of `RLMAgent.run` ends. -/
inductive RunOutcome : Type
  | buildFail : RunOutcome
  | startFail : RunOutcome
  | answer (s : List Char) : RunOutcome
  | exhausted (last : Option (List Char)) : RunOutcome
  | raised : RunOutcome
deriving DecidableEq, Repr

/-- The `for turn in range(self.max_turns)` loop of `RLMAgent.run`, driven by
the sequence of LLM-call outcomes (one `LLMStep` per turn, so `steps.length`
plays the role of `max_turns`). -/
def loopTurns {NS : Type} (exec : List Char → NS → NS × ExecResult)
    (getVar : NS → List Char → PyVal) (limit : Nat) :
    List LLMStep → Option (List Char) → NS → RunOutcome
  | [], last, _ => RunOutcome.exhausted last
  | LLMStep.raises :: _, _, _ => RunOutcome.raised
  | LLMStep.ok r :: rest, _, ns =>
    match runTurn exec getVar limit r ns with
    | (TurnOut.final a, _) => RunOutcome.answer a
    | (TurnOut.next _ _, ns') => loopTurns exec getVar limit rest (some r) ns'

/-- `RLMAgent.run` (`agent.py` lines 91-229).  The returned `Bool` records
whether `sandbox.stop()` ran.  The image-build and `sandbox.start()` checks
(lines 127-133) precede the `try` block; the `try/finally` (lines 135-229)
wraps the loop, so its three exits (final answer, turn budget exhausted,
propagated exception) all stop the sandbox. -/
def agentRun {NS : Type} (imageExists buildOk startOk : Bool)
    (steps : List LLMStep) (exec : List Char → NS → NS × ExecResult)
    (getVar : NS → List Char → PyVal) (limit : Nat) (ns : NS) :
    RunOutcome × Bool :=
  if !imageExists && !buildOk then (RunOutcome.buildFail, false)
  else if !startOk then (RunOutcome.startFail, false)
  else (loopTurns exec getVar limit steps Option.none ns, true)

/-- Process-wide recursion-gate state read by `llm_query`
(`repl_server.py` lines 169-182): the environment variables
`RLM_RECURSION_DEPTH`, `RLM_MAX_RECURSION_DEPTH` (default 3), and whether
`OPENROUTER_API_KEY` is set. -/
structure GateEnv : Type where
  depth : Nat
  maxDepth : Nat
  hasKey : Bool
deriving DecidableEq, Repr

/-- Outcome of the single LLM transport call inside `llm_query`:
a 2xx body, a `requests.Timeout`, or any other exception. -/
inductive LLMOutcome : Type
  | ok (text : List Char) : LLMOutcome
  | timeout : LLMOutcome
  | exc (msg : List Char) : LLMOutcome

/-- Observables of one `llm_query` invocation: its returned string, the
gate state after the call, how many network requests were issued, and the
value of the shared depth while the request (if any) was in flight. -/
structure GateResult : Type where
  result : List Char
  env : GateEnv
  networkCalls : Nat
  depthDuringCall : Option Nat
deriving DecidableEq, Repr

/-- The gate's error string
`Error: Max recursion depth ({max_depth}) reached.` -/
def gateError (maxDepth : Nat) : List Char :=
  "Error: Max recursion depth (".data ++ (Nat.repr maxDepth).data
    ++ ") reached.".data

/-- `repl_server.py` `llm_query` (lines 150-231): the recursion gate returns
an error string with no network call when `current_depth >= max_depth`; the
missing-key check also precedes any network traffic; otherwise the shared
depth is incremented for the duration of exactly one LLM call and restored
in the `finally` block on every outcome. -/
def llm_query (st : GateEnv) (oracle : LLMOutcome) : GateResult :=
  if st.maxDepth ≤ st.depth then
    ⟨gateError st.maxDepth, st, 0, Option.none⟩
  else if !st.hasKey then
    ⟨"Error: OPENROUTER_API_KEY not set".data, st, 0, Option.none⟩
  else
    let res :=
      match oracle with
      | LLMOutcome.ok t => t
      | LLMOutcome.timeout => "Error: LLM request timed out".data
      | LLMOutcome.exc m => "Error: ".data ++ m
    ⟨res, st, 1, some (st.depth + 1)⟩

/-- Output ceiling of the persistent execution environment
(`repl_server.py` line 33, and `SelfSandbox.MAX_OUTPUT_SIZE`). -/
def MAX_OUTPUT_SIZE : Nat := 50000

/-- The truncation notice of `execute_code`
(f-string `\n... [Truncated at {MAX_OUTPUT_SIZE} chars]`). -/
def execNotice : List Char :=
  "\n... [Truncated at ".data ++ (Nat.repr MAX_OUTPUT_SIZE).data
    ++ " chars]".data

/-- `repl_server.py` `execute_code` (lines 238-263), identical in
`SelfSandbox.exec_code`.  The effect of `exec(code)` is abstracted by its
observables: the captured stdout and stderr and, if the code raised, the
formatted traceback.  On success stdout is truncated at the ceiling; on the
exception branch the captured stdout is returned as-is. -/
def execute_code (stdout stderr : List Char) (exc : Option (List Char)) :
    ExecResult :=
  match exc with
  | Option.none =>
    let out :=
      if MAX_OUTPUT_SIZE < stdout.length then
        stdout.take MAX_OUTPUT_SIZE ++ execNotice
      else stdout
    ⟨true, out, if stderr = [] then Option.none else some stderr⟩
  | some tb => ⟨false, stdout, some tb⟩

/-- A sandbox namespace, Python dict from names to values (keys unique). -/
def NSl : Type := List (List Char × PyVal)

/-- Dict lookup `name in ns` / `ns[name]`. -/
def lookupNS : NSl → List Char → Option PyVal
  | [], _ => Option.none
  | (k, v) :: rest, name => if k = name then some v else lookupNS rest name

/-- `SelfSandbox.get_variable` (`self_sandbox.py` lines 89-109): returns
Python `None` when the name is unbound, and otherwise the bound value —
conflating an unbound name with a name bound to `None`.  All modelled
values are JSON-serializable, so the `repr` fallback is not taken. -/
def selfGetVariable (ns : NSl) (name : List Char) : PyVal :=
  match lookupNS ns name with
  | Option.none => PyVal.none
  | some v => v

/-- `SelfSandbox.ping` (`self_sandbox.py` lines 111-113): always `True`. -/
def selfPing (_ : Unit) : Bool := true

/-- `SelfSandbox.stop` (`self_sandbox.py` lines 124-126): a no-op. -/
def selfStop (st : Unit) : Unit := st

/-- Handle on the spawned `docker run` child process; `alive` is
`poll() is None`. -/
structure ProcHandle : Type where
  alive : Bool
deriving DecidableEq, Repr

/-- `DockerSandbox` client state: the optional child-process handle and the
`_running` flag. -/
structure DockerState : Type where
  proc : Option ProcHandle
  running : Bool
deriving DecidableEq, Repr

/-- A decoded JSON reply read from the child's stdout queue. -/
structure ChildResp : Type where
  success : Bool
  message : Option (List Char)
deriving DecidableEq, Repr

/-- Modelled from the spec: the container-side JSON server (not under
`src/`) answers `{action:"ping"}` with `{success, message:"pong"}`
(spec section 6, child-process IPC protocol). -/
def childPingResp : ChildResp := ⟨true, some "pong".data⟩

/-- The unsolicited startup message `{status:"ready", ...}`. -/
structure StartupMsg : Type where
  status : List Char
deriving DecidableEq, Repr

/-- `DockerSandbox.stop` (`docker_sandbox.py` lines 287-320): clears
`_running`, shuts the child down and sets `process = None`. -/
def dockerStop (_ : DockerState) : DockerState :=
  ⟨Option.none, false⟩

/-- `DockerSandbox.ping` (`docker_sandbox.py` lines 270-285): `False` when
there is no live process; otherwise sends `{action:"ping"}` and returns the
reply's `success` field (`False` on a read timeout, modelled by `resp =
none`). -/
def dockerPing (st : DockerState) (resp : Option ChildResp) : Bool :=
  match st.proc with
  | Option.none => false
  | some p =>
    if !p.alive then false
    else
      match resp with
      | Option.none => false
      | some r => r.success

/-- `DockerSandbox.start` (`docker_sandbox.py` lines 82-156): stops any
existing container, spawns the child (`spawnOk` models `Popen` succeeding),
then blocks for the startup message; success iff a `{status:"ready"}`
message arrives within the 30s window (`startup = none` models the
timeout). -/
def dockerStart (st : DockerState) (spawnOk : Bool)
    (startup : Option StartupMsg) : DockerState × Bool :=
  let st0 := dockerStop st
  if !spawnOk then (st0, false)
  else
    let st1 : DockerState := ⟨some ⟨true⟩, true⟩
    match startup with
    | some m => if m.status = "ready".data then (st1, true) else (st1, false)
    | Option.none => (st1, false)

/-- A match of `FINAL_VAR\((\w+)\)` whose keyword starts at the head of `s`,
with captured group `x`: the parenthesised content is a nonempty run of word
characters, pinned down by the closing parenthesis that follows it. -/
def FinalVarHead (s x : List Char) : Prop :=
  ∃ post, s = "FINAL_VAR(".data ++ (x ++ ')' :: post) ∧ x ≠ [] ∧
    ∀ c ∈ x, isWordChar c = true

/-- A match of `FINAL\(([^)]+)\)` whose keyword starts at the head of `s`,
with captured group `y`: the content is the nonempty text up to the first
closing parenthesis (`y` contains no `)` and is followed by one). -/
def FinalHead (s y : List Char) : Prop :=
  ∃ post, s = "FINAL(".data ++ (y ++ ')' :: post) ∧ y ≠ [] ∧
    ∀ c ∈ y, c ≠ ')'

/-- The text before a marker keyword admits the anchor `(?:^|\s)` with
`re.MULTILINE`: either nothing precedes the keyword, or the character
directly before it is whitespace. -/
def AnchoredPre (prev : Option Char) (pre : List Char) : Prop :=
  (pre = [] ∧ anchorOK prev = true) ∨
    ∃ pre' c, pre = pre' ++ [c] ∧ isPySpace c = true

/-- `s` contains an anchored `FINAL_VAR(identifier)` marker. -/
def HasAnchoredFinalVar (s : List Char) : Prop :=
  ∃ pre suf x, s = pre ++ suf ∧ FinalVarHead suf x ∧ AnchoredPre Option.none pre

/-- `s` contains an anchored `FINAL(content)` marker. -/
def HasAnchoredFinal (s : List Char) : Prop :=
  ∃ pre suf y, s = pre ++ suf ∧ FinalHead suf y ∧ AnchoredPre Option.none pre

/-- Concrete input for the conditional-idempotence witness: truncation at
limit 164 backs up to the newline at index 115, and the annotated result
(115 + 49 characters) fits back under the limit. -/
def truncIdemInput : List Char :=
  List.replicate 115 'a' ++ '\n' :: List.replicate 49 'b'

/-! ## Theorems -/

/-- Claim C1: when the current depth has reached the maximum the sub-query
callable returns the descriptive gate-error string at once with zero network
calls; on every invocation and every outcome the shared depth after the call
equals its value before; and whenever a network request is issued the call
began below the bound, the in-flight depth being `depth + 1 ≤ max_depth`. -/
theorem llm_query_gate (st : GateEnv) (o : LLMOutcome) :
    (st.maxDepth ≤ st.depth →
      llm_query st o = ⟨gateError st.maxDepth, st, 0, Option.none⟩) ∧
    (llm_query st o).env = st ∧
    (0 < (llm_query st o).networkCalls →
      st.depth < st.maxDepth ∧
      (llm_query st o).depthDuringCall = some (st.depth + 1) ∧
      st.depth + 1 ≤ st.maxDepth) := by
  refine ⟨fun h => by simp [llm_query, h], ?_, ?_⟩
  · by_cases h : st.maxDepth ≤ st.depth
    · simp [llm_query, h]
    · by_cases hk : st.hasKey <;> simp [llm_query, h, hk]
  · intro hc
    by_cases h : st.maxDepth ≤ st.depth
    · simp [llm_query, h] at hc
    · by_cases hk : st.hasKey
      · have hlt : st.depth < st.maxDepth := Nat.lt_of_not_le h
        exact ⟨hlt, by simp [llm_query, h, hk], hlt⟩
      · simp [llm_query, h, hk] at hc

/-- Witness for C1 at concrete gate states: a call at the depth bound
returns the gate error without any network call, and a call below the bound
issues its one request at in-flight depth `1`. -/
theorem llm_query_gate_witness :
    llm_query ⟨3, 3, true⟩ LLMOutcome.timeout
        = ⟨gateError 3, ⟨3, 3, true⟩, 0, Option.none⟩ ∧
    (llm_query ⟨0, 3, true⟩ (LLMOutcome.ok [])).depthDuringCall = some 1 :=
  ⟨(llm_query_gate ⟨3, 3, true⟩ LLMOutcome.timeout).1 (by decide),
   ((llm_query_gate ⟨0, 3, true⟩ (LLMOutcome.ok [])).2.2 (by decide)).2.1⟩

/-- Counterexample to claim C3 as stated: on the backend-startup-failure
exit path (`start()` returns false) `RLMAgent.run` returns the startup
error before entering the `try` block, and the sandbox is not stopped. -/
theorem agent_stop_cex :
    agentRun true true false []
        (fun _ (u : Unit) => (u, ⟨true, [], Option.none⟩))
        (fun _ _ => PyVal.none) 2000 ()
      = (RunOutcome.startFail, false) := rfl

/-- Claim C3 amended: once `sandbox.start()` has succeeded (and the image
check passed), every exit path of the loop — final answer, exhausted turn
budget, or a propagated exception — stops the sandbox; the two early error
returns before the `try` block (image-build failure, start failure) do not. -/
theorem agent_stop_amended {NS : Type} (imageExists buildOk startOk : Bool)
    (steps : List LLMStep) (exec : List Char → NS → NS × ExecResult)
    (getVar : NS → List Char → PyVal) (limit : Nat) (ns : NS)
    (hbuild : imageExists = true ∨ buildOk = true) (hstart : startOk = true) :
    (agentRun imageExists buildOk startOk steps exec getVar limit ns).2 = true := by
  subst hstart
  unfold agentRun
  rcases hbuild with h | h <;> subst h <;> simp

/-- Witness for amended C3: a started run whose single LLM call raises
still records the sandbox stop. -/
theorem agent_stop_amended_witness :
    (agentRun true true true [LLMStep.raises]
        (fun _ (u : Unit) => (u, ⟨true, [], Option.none⟩))
        (fun _ _ => PyVal.none) 2000 ()).2 = true :=
  agent_stop_amended true true true [LLMStep.raises] _ _ 2000 ()
    (Or.inl rfl) rfl

/-- Counterexample to claim C4 as stated: on the failure branch of
`execute_code` the captured stdout is returned without truncation, so the
response output can exceed the 50,000-character ceiling plus the notice. -/
theorem execute_code_ceiling_cex :
    MAX_OUTPUT_SIZE + execNotice.length <
      (execute_code (List.replicate 200000 'a') []
        (some "Traceback".data)).output.length := by
  simp only [execute_code, List.length_replicate]
  decide

/-- Claim C4 amended: on the success branch the output in the result is
bounded by the 50,000-character ceiling plus the trailing notice, and when
truncation occurred the output ends with the notice; the failure branch
returns the captured stdout unbounded. -/
theorem execute_code_ceiling_amended (out err : List Char) :
    (execute_code out err Option.none).output.length
        ≤ MAX_OUTPUT_SIZE + execNotice.length ∧
    (MAX_OUTPUT_SIZE < out.length →
      execNotice <:+ (execute_code out err Option.none).output) := by
  unfold execute_code
  by_cases h : MAX_OUTPUT_SIZE < out.length
  · constructor
    · simp only [h, if_true, List.length_append, List.length_take]
      exact Nat.add_le_add_right (min_le_left _ _) _
    · intro _
      simp only [h, if_true]
      exact List.suffix_append _ _
  · constructor
    · simp only [h, if_false]
      exact le_trans (Nat.le_of_not_lt h) (Nat.le_add_right _ _)
    · intro hcon
      exact absurd hcon h

/-- Witness for amended C4 at a concrete over-ceiling success output. -/
theorem execute_code_ceiling_witness :
    execNotice <:+
      (execute_code (List.replicate 50001 'a') [] Option.none).output :=
  (execute_code_ceiling_amended (List.replicate 50001 'a') []).2
    (by norm_num [MAX_OUTPUT_SIZE, List.length_replicate])

/-- Counterexample to claim C9 as stated: the in-process backend's `ping()`
returns `True` unconditionally, so after its no-op `stop()` it does not
return false. -/
theorem ping_after_stop_cex : ¬ (selfPing (selfStop ()) = false) := by decide

/-- Claim C9 amended: for the child-process (Docker) backend, `ping()` is
false after `stop()` and true after a successful `start()` once the child
answers the ping per the IPC protocol; the in-process variant's `stop()` is
a no-op and its `ping()` stays true. -/
theorem ping_round_trip_amended :
    (∀ st resp, dockerPing (dockerStop st) resp = false) ∧
    (∀ st spawnOk startup, (dockerStart st spawnOk startup).2 = true →
      dockerPing (dockerStart st spawnOk startup).1 (some childPingResp) = true) ∧
    (∀ u : Unit, selfPing (selfStop u) = true) := by
  refine ⟨fun st resp => rfl, ?_, fun u => rfl⟩
  intro st spawnOk startup h
  cases spawnOk with
  | false => simp [dockerStart, dockerStop] at h
  | true =>
    cases startup with
    | none => simp [dockerStart, dockerStop] at h
    | some m =>
      by_cases hm : m.status = "ready".data
      · simp [dockerStart, dockerStop, hm, dockerPing, childPingResp]
      · simp [dockerStart, dockerStop, hm] at h

/-- Witness for amended C9: a concrete successful start answers ping. -/
theorem ping_round_trip_witness :
    dockerPing (dockerStart ⟨Option.none, false⟩ true
        (some ⟨"ready".data⟩)).1 (some childPingResp) = true :=
  ping_round_trip_amended.2.1 ⟨Option.none, false⟩ true
    (some ⟨"ready".data⟩) (by decide)

/-- Claim C10: `get_variable` returns Python `None` both for an unbound name
and for a name bound to `None`, so the agent cannot tell the two apart: a
turn ending in `FINAL_VAR(name)` with `name` bound to `None` takes the
variable-not-found branch instead of returning the value. -/
theorem get_variable_none_conflated
    (exec : List Char → NSl → NSl × ExecResult) (limit : Nat) (ns : NSl)
    (name response : List Char)
    (hdet : detect_final_answer response
      = (true, some FinalKind.FINAL_VAR, some name))
    (hcode : extract_first_code_block response = Option.none)
    (hbound : lookupNS ns name = some PyVal.none) :
    selfGetVariable ns name = PyVal.none ∧
    selfGetVariable ns name = selfGetVariable [] name ∧
    runTurn exec selfGetVariable limit response ns
      = (TurnOut.final (varNotFoundErr name), ns) := by
  have hv : selfGetVariable ns name = PyVal.none := by
    unfold selfGetVariable
    rw [hbound]
  refine ⟨hv, by rw [hv]; rfl, ?_⟩
  simp [runTurn, hcode, hdet, hv]

/-- Witness for C10: namespace binding `x` to `None`, response
`FINAL_VAR(x)`; the loop returns the not-found error. -/
theorem get_variable_none_witness :
    runTurn (fun _ (u : NSl) => (u, ⟨true, [], Option.none⟩)) selfGetVariable
        2000 "FINAL_VAR(x)".data [("x".data, PyVal.none)]
      = (TurnOut.final (varNotFoundErr "x".data), [("x".data, PyVal.none)]) :=
  (get_variable_none_conflated _ 2000 [("x".data, PyVal.none)] "x".data
    "FINAL_VAR(x)".data (by decide) (by decide) (by decide)).2.2

/-- `rfindNL` returns an index inside the list. -/
lemma rfindNL_lt_length : ∀ (l : List Char) (i : Nat),
    rfindNL l = some i → i < l.length := by
  intro l
  induction l with
  | nil => intro i h; simp [rfindNL] at h
  | cons c rest ih =>
    intro i h
    unfold rfindNL at h
    cases hr : rfindNL rest with
    | some j =>
      rw [hr] at h
      cases h
      exact Nat.succ_lt_succ (ih j hr)
    | none =>
      rw [hr] at h
      by_cases hc : c = '\n'
      · rw [if_pos hc] at h
        cases h
        exact Nat.succ_le_succ (Nat.zero_le _)
      · rw [if_neg hc] at h
        cases h

/-- When `rfindNL` finds no index, the list has no newline. -/
lemma rfindNL_eq_none : ∀ (l : List Char), rfindNL l = Option.none →
    ∀ k : Nat, l[k]? ≠ some '\n' := by
  intro l
  induction l with
  | nil => intro _ k; simp
  | cons c rest ih =>
    intro h k
    unfold rfindNL at h
    cases hr : rfindNL rest with
    | some j => rw [hr] at h; cases h
    | none =>
      rw [hr] at h
      by_cases hc : c = '\n'
      · rw [if_pos hc] at h; cases h
      · rw [if_neg hc] at h
        cases k with
        | zero => simpa using hc
        | succ k => simpa using ih hr k

/-- The index returned by `rfindNL` is the last newline of the list,
i.e. Python `str.rfind('\n')`. -/
lemma rfindNL_eq_some : ∀ (l : List Char) (i : Nat), rfindNL l = some i →
    l[i]? = some '\n' ∧ ∀ j : Nat, i < j → l[j]? ≠ some '\n' := by
  intro l
  induction l with
  | nil => intro i h; simp [rfindNL] at h
  | cons c rest ih =>
    intro i h
    unfold rfindNL at h
    cases hr : rfindNL rest with
    | some j =>
      rw [hr] at h
      cases h
      obtain ⟨h1, h2⟩ := ih j hr
      refine ⟨by simpa using h1, ?_⟩
      intro k hk
      cases k with
      | zero => cases hk
      | succ k => simpa using h2 k (Nat.lt_of_succ_lt_succ hk)
    | none =>
      rw [hr] at h
      by_cases hc : c = '\n'
      · rw [if_pos hc] at h
        cases h
        refine ⟨by simpa using hc, ?_⟩
        intro k hk
        cases k with
        | zero => cases hk
        | succ k => simpa using rfindNL_eq_none rest hr k
      · rw [if_neg hc] at h
        cases h

/-- Claim C6: `truncate_output` is the identity within the limit; beyond it
the result is a prefix of the cut (backed up to the last newline of the cut
exactly when that newline lies in its last 30%) followed by the notice
carrying the original length, and its total length is bounded by the limit
plus the notice's length. -/
theorem truncate_output_spec (s : List Char) (n : Nat) :
    (s.length ≤ n → truncate_output s n = s) ∧
    (n < s.length →
      ∃ k, k ≤ n ∧
        truncate_output s n = s.take k ++ truncNotice s.length ∧
        (truncate_output s n).length ≤ n + (truncNotice s.length).length ∧
        truncNotice s.length <:+ truncate_output s n ∧
        (match rfindNL (s.take n) with
         | some i =>
             k = (if 7 * n < 10 * i then i else n) ∧
             (s.take n)[i]? = some '\n' ∧
             ∀ j : Nat, i < j → (s.take n)[j]? ≠ some '\n'
         | Option.none => k = n ∧ ∀ j : Nat, (s.take n)[j]? ≠ some '\n')) := by
  constructor
  · intro h
    unfold truncate_output
    rw [if_pos h]
  · intro h
    have hns : ¬ s.length ≤ n := not_le.mpr h
    have htk : (s.take n).length = n := by
      rw [List.length_take]
      exact min_eq_left (le_of_lt h)
    unfold truncate_output cutBody
    rw [if_neg hns]
    cases hnl : rfindNL (s.take n) with
    | none =>
      refine ⟨n, le_refl n, rfl, ?_, List.suffix_append _ _, ?_⟩
      · simp only [List.length_append, htk, le_refl]
      · exact ⟨rfl, rfindNL_eq_none _ hnl⟩
    | some i =>
      have hi : i < n := htk ▸ rfindNL_lt_length _ i hnl
      obtain ⟨hat, hlast⟩ := rfindNL_eq_some _ i hnl
      dsimp only
      by_cases hcond : 7 * n < 10 * i
      · rw [if_pos hcond, List.take_take, min_eq_left (le_of_lt hi)]
        refine ⟨i, le_of_lt hi, rfl, ?_, List.suffix_append _ _,
          (if_pos hcond).symm, hat, hlast⟩
        rw [List.length_append]
        exact Nat.add_le_add_right
          (le_trans (List.length_take_le i s) (le_of_lt hi)) _
      · rw [if_neg hcond]
        refine ⟨n, le_refl n, rfl, ?_, List.suffix_append _ _,
          (if_neg hcond).symm, hat, hlast⟩
        rw [List.length_append, htk]

/-- Witness for C6 at concrete inputs: identity below the limit, and the
full truncating characterisation at `n = 5` on an 8-character input. -/
theorem truncate_output_spec_witness :
    truncate_output "ab".data 5 = "ab".data ∧
    (∃ k, k ≤ 5 ∧
      truncate_output "abcdefgh".data 5
          = "abcdefgh".data.take k ++ truncNotice ("abcdefgh".data).length ∧
      (truncate_output "abcdefgh".data 5).length
          ≤ 5 + (truncNotice ("abcdefgh".data).length).length ∧
      truncNotice ("abcdefgh".data).length <:+ truncate_output "abcdefgh".data 5 ∧
      (match rfindNL ("abcdefgh".data.take 5) with
       | some i =>
           k = (if 7 * 5 < 10 * i then i else 5) ∧
           ("abcdefgh".data.take 5)[i]? = some '\n' ∧
           ∀ j : Nat, i < j → ("abcdefgh".data.take 5)[j]? ≠ some '\n'
       | Option.none => k = 5 ∧ ∀ j : Nat, ("abcdefgh".data.take 5)[j]? ≠ some '\n')) :=
  ⟨(truncate_output_spec "ab".data 5).1 (by decide),
   (truncate_output_spec "abcdefgh".data 5).2 (by decide)⟩

/-- Counterexample to claim C5 as stated: the annotated result of truncating
a 6-character string at limit 5 is 52 characters long, so re-truncating it
at the same limit cuts again and reports a different total length. -/
theorem truncate_idempotent_cex :
    truncate_output (truncate_output "abcdef".data 5) 5
      ≠ truncate_output "abcdef".data 5 := by decide

/-- Claim C5 amended: re-truncating at the same limit is the identity
whenever the first truncation's annotated result fits within the limit
(which holds when backing up to the newline drops at least as many
characters as the notice adds); otherwise the result is re-truncated with a
notice reporting the annotated string's length. -/
theorem truncate_idempotent_amended (s : List Char) (n : Nat)
    (h : (truncate_output s n).length ≤ n) :
    truncate_output (truncate_output s n) n = truncate_output s n := by
  generalize truncate_output s n = t at h ⊢
  unfold truncate_output
  rw [if_pos h]

set_option maxRecDepth 8000

/-- Witness for amended C5: a 165-character input truncated at 164 backs up
to the newline at index 115; the 164-character limit then absorbs the
49-character notice and re-truncation is the identity. -/
theorem truncate_idempotent_witness :
    (truncate_output truncIdemInput 164).length ≤ 164 ∧
    truncate_output (truncate_output truncIdemInput 164) 164
      = truncate_output truncIdemInput 164 :=
  ⟨by decide, truncate_idempotent_amended truncIdemInput 164 (by decide)⟩

/-- A list is a Boolean prefix of itself extended by anything. -/
lemma isPrefixOf_append (l₁ l₂ : List Char) : l₁.isPrefixOf (l₁ ++ l₂) = true := by
  induction l₁ with
  | nil => simp [List.isPrefixOf]
  | cons c rest ih => simp [List.isPrefixOf, ih]

/-- A Boolean prefix decomposes the list. -/
lemma isPrefixOf_eq_append (l₁ : List Char) :
    ∀ s : List Char, l₁.isPrefixOf s = true → s = l₁ ++ s.drop l₁.length := by
  induction l₁ with
  | nil => intro s _; rfl
  | cons c rest ih =>
    intro s h
    cases s with
    | nil => simp [List.isPrefixOf] at h
    | cons d tl =>
      simp only [List.isPrefixOf, Bool.and_eq_true, beq_iff_eq] at h
      obtain ⟨hc, htl⟩ := h
      subst hc
      simpa using ih tl htl

/-- `drop` past an appended list of known length. -/
lemma drop_append_of_length (l₁ l₂ : List Char) (n : Nat) (h : l₁.length = n) :
    (l₁ ++ l₂).drop n = l₂ := by
  subst h
  exact List.drop_left l₁ l₂

/-- `takeWhile` over an all-true block followed by a stopper. -/
lemma takeWhile_all_stop (p : Char → Bool) (x : List Char) (b : Char)
    (post : List Char) (hx : ∀ c ∈ x, p c = true) (hb : p b = false) :
    (x ++ b :: post).takeWhile p = x := by
  induction x with
  | nil => simp [List.takeWhile_cons, hb]
  | cons c rest ih =>
    have hc := hx c (by simp)
    simp only [List.cons_append, List.takeWhile_cons, hc, if_true]
    rw [ih (fun d hd => hx d (by simp [hd]))]

/-- Splitting a list at the end of its `takeWhile` block. -/
lemma append_drop_takeWhile (p : Char → Bool) (l : List Char) :
    l.takeWhile p ++ l.drop (l.takeWhile p).length = l := by
  obtain ⟨t, ht⟩ := (List.takeWhile_prefix p : l.takeWhile p <+: l)
  have hd := congrArg (List.drop (l.takeWhile p).length) ht
  rw [List.drop_left] at hd
  rw [← hd]
  exact ht

/-- `matchFinalVarHere` finds every head match of `FINAL_VAR\((\w+)\)`. -/
lemma matchFinalVarHere_complete (s x : List Char) (h : FinalVarHead s x) :
    matchFinalVarHere s = some x := by
  obtain ⟨post, hs, hne, hall⟩ := h
  subst hs
  have hdrop : ("FINAL_VAR(".data ++ (x ++ ')' :: post)).drop 10 = x ++ ')' :: post :=
    drop_append_of_length _ _ 10 (by decide)
  have htw : (x ++ ')' :: post).takeWhile isWordChar = x :=
    takeWhile_all_stop isWordChar x ')' post hall (by decide)
  have hdrop2 : (x ++ ')' :: post).drop x.length = ')' :: post := List.drop_left x _
  unfold matchFinalVarHere
  rw [isPrefixOf_append "FINAL_VAR(".data (x ++ ')' :: post)]
  rw [if_pos rfl]
  simp only [hdrop, htw, hdrop2, if_neg hne]

/-- Everything `matchFinalVarHere` returns is a head match. -/
lemma matchFinalVarHere_sound (s x : List Char)
    (h : matchFinalVarHere s = some x) : FinalVarHead s x := by
  unfold matchFinalVarHere at h
  by_cases hp : "FINAL_VAR(".data.isPrefixOf s = true
  · rw [if_pos hp] at h
    dsimp only at h
    by_cases hrun : (s.drop 10).takeWhile isWordChar = []
    · rw [if_pos hrun] at h
      cases h
    · rw [if_neg hrun] at h
      split at h
      · rename_i tail heq
        obtain hx : (s.drop 10).takeWhile isWordChar = x := Option.some.inj h
        subst hx
        refine ⟨tail, ?_, hrun, fun c hc => List.mem_takeWhile_imp hc⟩
        have h1 : s = "FINAL_VAR(".data ++ s.drop 10 := by
          have := isPrefixOf_eq_append _ s hp
          simpa using this
        have h2 : s.drop 10
            = (s.drop 10).takeWhile isWordChar ++ ')' :: tail := by
          conv_lhs => rw [← append_drop_takeWhile isWordChar (s.drop 10)]
          rw [heq]
        rw [h2] at h1
        exact h1
      · cases h
  · rw [if_neg hp] at h
    cases h

/-- `matchFinalHere` finds every head match of `FINAL\(([^)]+)\)`. -/
lemma matchFinalHere_complete (s y : List Char) (h : FinalHead s y) :
    matchFinalHere s = some y := by
  obtain ⟨post, hs, hne, hall⟩ := h
  subst hs
  have hdrop : ("FINAL(".data ++ (y ++ ')' :: post)).drop 6 = y ++ ')' :: post :=
    drop_append_of_length _ _ 6 (by decide)
  have htw : (y ++ ')' :: post).takeWhile (fun c => !(c = ')')) = y := by
    refine takeWhile_all_stop _ y ')' post (fun c hc => ?_) (by simp)
    simpa using hall c hc
  have hdrop2 : (y ++ ')' :: post).drop y.length = ')' :: post := List.drop_left y _
  unfold matchFinalHere
  rw [isPrefixOf_append "FINAL(".data (y ++ ')' :: post)]
  rw [if_pos rfl]
  simp only [hdrop, htw, hdrop2, if_neg hne]

/-- Everything `matchFinalHere` returns is a head match: in particular the
captured content contains no `)` — the regex stops at the first closing
parenthesis, escaped or not. -/
lemma matchFinalHere_sound (s y : List Char)
    (h : matchFinalHere s = some y) : FinalHead s y := by
  unfold matchFinalHere at h
  by_cases hp : "FINAL(".data.isPrefixOf s = true
  · rw [if_pos hp] at h
    dsimp only at h
    by_cases hrun : (s.drop 6).takeWhile (fun c => !(c = ')')) = []
    · rw [if_pos hrun] at h
      cases h
    · rw [if_neg hrun] at h
      split at h
      · rename_i tail heq
        obtain hx : (s.drop 6).takeWhile (fun c => !(c = ')')) = y :=
          Option.some.inj h
        subst hx
        refine ⟨tail, ?_, hrun, fun c hc => by simpa using List.mem_takeWhile_imp hc⟩
        have h1 : s = "FINAL(".data ++ s.drop 6 := by
          have := isPrefixOf_eq_append _ s hp
          simpa using this
        have h2 : s.drop 6
            = (s.drop 6).takeWhile (fun c => !(c = ')')) ++ ')' :: tail := by
          conv_lhs => rw [← append_drop_takeWhile (fun c => !(c = ')')) (s.drop 6)]
          rw [heq]
        rw [h2] at h1
        exact h1
      · cases h
  · rw [if_neg hp] at h
    cases h

/-- Soundness of the anchored scan: a returned capture comes from a head
match at an anchored position. -/
lemma scanAnchored_sound (f : List Char → Option (List Char))
    (P : List Char → List Char → Prop)
    (hf : ∀ s x, f s = some x → P s x) :
    ∀ (s : List Char) (prev : Option Char) (x : List Char),
      scanAnchored f prev s = some x →
      ∃ pre suf, s = pre ++ suf ∧ P suf x ∧ AnchoredPre prev pre := by
  intro s
  induction s with
  | nil => intro prev x h; simp [scanAnchored] at h
  | cons c rest ih =>
    intro prev x h
    unfold scanAnchored at h
    by_cases ha : anchorOK prev = true
    · rw [if_pos ha] at h
      cases hm : f (c :: rest) with
      | some y =>
        simp only [hm] at h
        cases h
        exact ⟨[], c :: rest, rfl, hf _ _ hm, Or.inl ⟨rfl, ha⟩⟩
      | none =>
        simp only [hm] at h
        obtain ⟨pre, suf, hs, hP, hanch⟩ := ih (some c) x h
        refine ⟨c :: pre, suf, by rw [List.cons_append, ← hs], hP, ?_⟩
        rcases hanch with ⟨hpre, hok⟩ | ⟨pre', d, hpre, hd⟩
        · subst hpre
          exact Or.inr ⟨[], c, rfl, hok⟩
        · subst hpre
          exact Or.inr ⟨c :: pre', d, rfl, hd⟩
    · rw [if_neg ha] at h
      obtain ⟨pre, suf, hs, hP, hanch⟩ := ih (some c) x h
      refine ⟨c :: pre, suf, by rw [List.cons_append, ← hs], hP, ?_⟩
      rcases hanch with ⟨hpre, hok⟩ | ⟨pre', d, hpre, hd⟩
      · subst hpre
        exact Or.inr ⟨[], c, rfl, hok⟩
      · subst hpre
        exact Or.inr ⟨c :: pre', d, rfl, hd⟩

/-- Completeness of the anchored scan: if an anchored head match exists
somewhere in `s`, the scan returns a capture. -/
lemma scanAnchored_isSome (f : List Char → Option (List Char))
    (P : List Char → List Char → Prop)
    (hf : ∀ s x, P s x → f s = some x)
    (hne : ∀ s x, P s x → s ≠ []) :
    ∀ (s : List Char) (prev : Option Char),
      (∃ pre suf x, s = pre ++ suf ∧ P suf x ∧ AnchoredPre prev pre) →
      (scanAnchored f prev s).isSome := by
  intro s
  induction s with
  | nil =>
    rintro prev ⟨pre, suf, x, hs, hP, -⟩
    obtain ⟨-, hsuf⟩ := List.append_eq_nil.mp hs.symm
    exact absurd hsuf (hne suf x hP)
  | cons c rest ih =>
    rintro prev ⟨pre, suf, x, hs, hP, hanch⟩
    unfold scanAnchored
    cases pre with
    | nil =>
      rcases hanch with ⟨-, ha⟩ | ⟨pre', d, hpre, -⟩
      · rw [if_pos ha]
        have hsuf : c :: rest = suf := by simpa using hs
        rw [hsuf, hf suf x hP]
        rfl
      · exact absurd hpre.symm (by simp)
    | cons p pre' =>
      rw [List.cons_append] at hs
      injection hs with hc hrest
      subst hc
      have hanch' : AnchoredPre (some c) pre' := by
        rcases hanch with ⟨hnil, -⟩ | ⟨preB, d, hpre, hd⟩
        · exact absurd hnil (by simp)
        · cases preB with
          | nil =>
            injection hpre with h1 h2
            subst h1
            subst h2
            exact Or.inl ⟨rfl, hd⟩
          | cons q preC =>
            rw [List.cons_append] at hpre
            injection hpre with h1 h2
            exact Or.inr ⟨preC, d, h2, hd⟩
      have hrec := ih (some c) ⟨pre', suf, x, hrest, hP, hanch'⟩
      by_cases ha : anchorOK prev = true
      · rw [if_pos ha]
        cases hm : f (c :: rest) with
        | some y => simp [hm]
        | none => simpa only [hm] using hrec
      · rw [if_neg ha]
        exact hrec

/-- Claim C7: when a text contains both an anchored `FINAL_VAR(x)` marker
and an anchored `FINAL(y)` marker, `detect_final_answer` reports a
`FINAL_VAR` result whose content is an anchored `FINAL_VAR` occurrence of
the text — `FINAL_VAR` is checked first and takes precedence. -/
theorem detect_final_precedence (s : List Char)
    (h1 : HasAnchoredFinalVar s) (_h2 : HasAnchoredFinal s) :
    ∃ x, detect_final_answer s = (true, some FinalKind.FINAL_VAR, some x) ∧
      ∃ pre suf, s = pre ++ suf ∧ FinalVarHead suf x ∧
        AnchoredPre Option.none pre := by
  have hsome := scanAnchored_isSome matchFinalVarHere FinalVarHead
    matchFinalVarHere_complete
    (fun s x h => by obtain ⟨post, hs, -, -⟩ := h; subst hs; simp)
    s Option.none h1
  obtain ⟨x, hx⟩ := Option.isSome_iff_exists.mp hsome
  refine ⟨x, ?_, scanAnchored_sound matchFinalVarHere FinalVarHead
    matchFinalVarHere_sound s Option.none x hx⟩
  unfold detect_final_answer
  rw [hx]

/-- Witness for C7 on `"FINAL_VAR(x) FINAL(y)"`. -/
theorem detect_final_precedence_witness :
    ∃ x, detect_final_answer "FINAL_VAR(x) FINAL(y)".data
        = (true, some FinalKind.FINAL_VAR, some x) ∧
      ∃ pre suf, "FINAL_VAR(x) FINAL(y)".data = pre ++ suf ∧
        FinalVarHead suf x ∧ AnchoredPre Option.none pre :=
  detect_final_precedence "FINAL_VAR(x) FINAL(y)".data
    ⟨[], "FINAL_VAR(x) FINAL(y)".data, "x".data, rfl,
      ⟨" FINAL(y)".data, by decide, by decide, by decide⟩,
      Or.inl ⟨rfl, rfl⟩⟩
    ⟨"FINAL_VAR(x) ".data, "FINAL(y)".data, "y".data, by decide,
      ⟨[], by decide, by decide, by decide⟩,
      Or.inr ⟨"FINAL_VAR(x)".data, ' ', by decide, by decide⟩⟩

/-- Counterexample to claim C8 as stated: in `FINAL(a\)b)` the backslash
does not protect the first `)`, so the extracted content is `a\` and not
the claimed `a\)b` — the regex stops at the first `)`, escaped or not. -/
theorem detect_final_escape_cex :
    detect_final_answer "FINAL(a\\)b)".data
        = (true, some FinalKind.FINAL, some "a\\".data) ∧
    "a\\".data ≠ "a\\)b".data :=
  ⟨by decide, by decide⟩

/-- Claim C8 amended: the `FINAL` content is the text up to the first `)`
(whether escaped or not), and content that strips to empty makes
`detect_final_answer` report no marker found. -/
theorem detect_final_content_amended (s y : List Char)
    (hvar : scanAnchored matchFinalVarHere Option.none s = Option.none)
    (hfin : scanAnchored matchFinalHere Option.none s = some y) :
    (∃ pre suf, s = pre ++ suf ∧ FinalHead suf y ∧
      AnchoredPre Option.none pre) ∧
    detect_final_answer s =
      (if pyStrip y = [] then (false, Option.none, Option.none)
       else (true, some FinalKind.FINAL, some (pyStrip y))) := by
  refine ⟨scanAnchored_sound matchFinalHere FinalHead
    matchFinalHere_sound s Option.none y hfin, ?_⟩
  unfold detect_final_answer
  rw [hvar, hfin]

/-- Witness for amended C8 on `"ok FINAL( hi ) done"`: the content is cut at
the first `)` and stripped to `hi`. -/
theorem detect_final_content_witness :
    (∃ pre suf, "ok FINAL( hi ) done".data = pre ++ suf ∧
      FinalHead suf " hi ".data ∧ AnchoredPre Option.none pre) ∧
    detect_final_answer "ok FINAL( hi ) done".data =
      (if pyStrip " hi ".data = [] then (false, Option.none, Option.none)
       else (true, some FinalKind.FINAL, some (pyStrip " hi ".data))) :=
  detect_final_content_amended "ok FINAL( hi ) done".data " hi ".data
    (by decide) (by decide)

/-- Claim C2: in a turn whose response carries both a code block and a
`FINAL_VAR` marker, the code is executed first and the variable is resolved
from the post-execution namespace; the loop returns its rendered value. -/
theorem agent_exec_before_final {NS : Type}
    (exec : List Char → NS → NS × ExecResult) (getVar : NS → List Char → PyVal)
    (limit : Nat) (response : List Char) (ns : NS) (code name : List Char)
    (v : PyVal)
    (hcode : extract_first_code_block response = some code)
    (hdet : detect_final_answer response
      = (true, some FinalKind.FINAL_VAR, some name))
    (hvar : getVar (exec code ns).1 name = v) (hv : v ≠ PyVal.none) :
    runTurn exec getVar limit response ns
      = (TurnOut.final (pyStr v), (exec code ns).1) := by
  simp [runTurn, hcode, hdet, hvar, hv]

/-- Witness for C2: the response defines `answer` in code and ends with
`FINAL_VAR(answer)`; the loop executes the code, then resolves `answer`
from the updated namespace and returns `"done"`. -/
theorem agent_exec_before_final_witness :
    runTurn
        (fun _ (ns : NSl) => (("answer".data, PyVal.str "done".data) :: ns,
          ⟨true, [], Option.none⟩))
        selfGetVariable 2000
        "```python\nanswer = 1\n```\nFINAL_VAR(answer)".data []
      = (TurnOut.final "done".data,
          [("answer".data, PyVal.str "done".data)]) :=
  agent_exec_before_final _ selfGetVariable 2000
    "```python\nanswer = 1\n```\nFINAL_VAR(answer)".data []
    "answer = 1".data "answer".data (PyVal.str "done".data)
    (by decide) (by decide) (by decide) (by decide)

end RLM
